import Mathlib

/-!
Verification of the `laurier` styled-text core: the range merger and
highlighter of `src/highlight.rs` and the width truncator of `src/spans.rs`,
embedded shallowly.  Text content is a `List Char` (one entry per byte of the
Rust `&str`; all reasoning is at the level of offsets, so this is faithful for
the byte-offset arithmetic of the source).  Loops of the source are embedded
as structurally recursive functions; the two cursor loops of
`HigilightMatchedText::into_spans` take an explicit fuel argument that the
callers instantiate with a bound that provably dominates the number of
iterations, so every definition evaluates by `decide`/`rfl`.
-/

namespace Laurier

/-- Modelled from the spec: a `Style` is "an opaque, partially-specified
attribute bag (foreground, background, text modifiers)" (the concrete type
lives in the external `ratatui` crate, not in this repository's sources).
Each attribute is `Option Nat`: `none` means unset. -/
structure Style where
  fg : Option Nat
  bg : Option Nat
  md : Option Nat
deriving DecidableEq

/-- First-set-wins choice between two optional attributes. -/
def optOr : Option Nat → Option Nat → Option Nat
  | some x, _ => some x
  | none, b => b

/-- Modelled from the spec: `compose(base, overlay)` — "every attribute
explicitly set in `overlay` replaces the corresponding attribute of `base`;
attributes left unset in `overlay` retain `base`'s value"
(`ratatui::Style::patch`, external to this repository). -/
def Style.patch (s o : Style) : Style :=
  ⟨optOr o.fg s.fg, optOr o.bg s.bg, optOr o.md s.md⟩

/-- `Style::default()`: everything unset. -/
def defaultStyle : Style := ⟨none, none, none⟩

/-- `ratatui::text::Span`: a content string with a style.  Content is a list
of (byte-sized) characters. -/
structure Span where
  content : List Char
  style : Style
deriving DecidableEq

/-- `Range { start, end }` from `src/highlight.rs` (the Rust field `end` is a
Lean keyword, so it is called `stop` here). -/
structure Range where
  start : Nat
  stop : Nat
deriving DecidableEq

/-- `Vec::dedup` after sorting: remove consecutive duplicates. -/
def dedupConsec : List Nat → List Nat
  | [] => []
  | [a] => [a]
  | a :: b :: t => if a = b then dedupConsec (b :: t) else a :: dedupConsec (b :: t)

/-- `sort_and_dedup` from `src/highlight.rs`: `indices.sort_unstable();
indices.dedup();`. -/
def sort_and_dedup (l : List Nat) : List Nat :=
  dedupConsec (List.insertionSort (· ≤ ·) l)

/-- The sweep loop of `to_ranges`: the running window is `[start, stop)`; the
next index extends the window when it equals `stop`, otherwise the window is
closed and a new one starts. -/
def to_ranges_loop : Nat → Nat → List Nat → List Range
  | start, stop, [] => [⟨start, stop⟩]
  | start, stop, i :: rest =>
    if i = stop then to_ranges_loop start (i + 1) rest
    else ⟨start, stop⟩ :: to_ranges_loop i (i + 1) rest

/-- `to_ranges` from `src/highlight.rs`. -/
def to_ranges (l : List Nat) : List Range :=
  if l.isEmpty then []
  else
    match sort_and_dedup l with
    | [] => []
    | i :: rest => to_ranges_loop i (i + 1) rest

/-- `r.start <= p && p < r.end`: the containment test used by `is_matched`. -/
def Range.holds (r : Range) (p : Nat) : Bool :=
  decide (r.start ≤ p) && decide (p < r.stop)

/-- The `is_matched` test of `into_spans` at absolute position `p`. -/
def matchState (ms : List Range) (p : Nat) : Bool :=
  ms.any (fun r => r.holds p)

/-- `matchRanges.iter().flat_map(|r| [r.start, r.end])`. -/
def boundaries (ms : List Range) : List Nat :=
  ms.flatMap (fun r => [r.start, r.stop])

/-- `find_next_break` from `src/highlight.rs`: the minimum range boundary
strictly greater than `pos`. -/
def find_next_break (pos : Nat) (ms : List Range) : Option Nat :=
  ((boundaries ms).filter (fun b => decide (pos < b))).min?

/-- `r.start..r.end` as a list of indices (empty when `stop ≤ start`). -/
def rangeIdx (r : Range) : List Nat :=
  List.range' r.start (r.stop - r.start)

/-- The clipping scan of `into_spans` (lines 105-118 of `src/highlight.rs`):
`some tmp` when some range's `end` exceeds `limit` (`broken`), in which case
`tmp` is the prefix of ranges before the first such range followed by the one
clipped range; `none` when no range breaks the limit. -/
def clipMatches (limit total : Nat) : List Range → Option (List Range)
  | [] => none
  | r :: rest =>
    if limit < r.stop then
      some [if r.start < limit then ⟨r.start, total⟩ else ⟨limit, total⟩]
    else
      match clipMatches limit total rest with
      | some tmp => some (r :: tmp)
      | none => none

/-- The match list actually used by the emission loop: when the clip scan
broke, the clipped ranges are flattened back to indices and re-merged
(lines 120-125 of `src/highlight.rs`); otherwise the caller's ranges pass
through. -/
def applyClip (limit total : Nat) (ms : List Range) : List Range :=
  match clipMatches limit total ms with
  | some tmp => to_ranges (tmp.flatMap rangeIdx)
  | none => ms

/-- Total content length: `self.spans.iter().map(|s| s.content.len()).sum()`. -/
def totalLen (spans : List Span) : Nat :=
  (spans.map (fun s => s.content.length)).sum

/-- The inner `while` loop of `into_spans` (lines 143-170): slices the current
fragment at the next break, styling each piece by its match state.  `fuel`
bounds the iteration count; each iteration strictly advances the cursor, so
any `fuel ≥ eff - (cp + cursor)` gives the loop's exact behaviour. -/
def innerLoop (fuel : Nat) (content : List Char) (ostyle : Style)
    (mu : List Range) (mstyle nstyle : Style) (cp eff cursor : Nat) : List Span :=
  match fuel with
  | 0 => []
  | fuel + 1 =>
    if cp + cursor < eff then
      let absPos := cp + cursor
      let nb := min ((find_next_break absPos mu).getD eff) eff
      let eis := nb - cp
      let slice := (content.drop cursor).take (eis - cursor)
      if slice.isEmpty then
        innerLoop fuel content ostyle mu mstyle nstyle cp eff eis
      else
        let st := if matchState mu absPos then ostyle.patch mstyle else ostyle.patch nstyle
        ⟨slice, st⟩ :: innerLoop fuel content ostyle mu mstyle nstyle cp eff eis
    else []

/-- The outer `for span in &self.spans` loop of `into_spans` (lines 133-172),
tracking the running global offset `cp` and breaking once `cp ≥ limit`. -/
def outerLoop (mu : List Range) (mstyle nstyle : Style) (limit : Nat) :
    List Span → Nat → List Span
  | [], _ => []
  | s :: rest, cp =>
    if limit ≤ cp then []
    else
      let len := s.content.length
      let eff := min (cp + len) limit
      innerLoop eff s.content s.style mu mstyle nstyle cp eff 0
        ++ outerLoop mu mstyle nstyle limit rest (cp + len)

/-- `HigilightMatchedText::into_spans` from `src/highlight.rs`: the full
highlighter, with `matchRanges` the (already merged) range list, and optionally
an ellipsis string. -/
def into_spans (spans : List Span) (matchRanges : List Range)
    (nstyle mstyle : Style) (ellipsis : Option (List Char)) : List Span :=
  if spans.isEmpty then []
  else
    match ellipsis with
    | some e =>
      outerLoop (applyClip (totalLen spans - e.length) (totalLen spans) matchRanges)
          mstyle nstyle (totalLen spans - e.length) spans 0
        ++ [⟨e, if matchState (applyClip (totalLen spans - e.length) (totalLen spans)
                    matchRanges) (totalLen spans - e.length)
                then mstyle else nstyle⟩]
    | none =>
      outerLoop matchRanges mstyle nstyle (totalLen spans) spans 0

/-- Concatenation of the contents of a fragment list. -/
def joinContents : List Span → List Char
  | [] => []
  | s :: rest => s.content ++ joinContents rest

/-- Modelled from the spec: the external collaborator
`displayWidth(text) -> uint` (the `console::measure_text_width` crate
function); the per-glyph column width is an arbitrary parameter `w`, and a
string's width is the sum of its glyphs' widths. -/
def measureWidth (w : Char → Nat) (l : List Char) : Nat :=
  (l.map w).sum

/-- Modelled from the spec: the external collaborator
`truncateToWidth(text, width) -> text` "returns the longest prefix of `text`
whose display width is `<= width`" (the `console::truncate_str` crate
function with an empty tail). -/
def truncateToWidth (w : Char → Nat) : List Char → Nat → List Char
  | [], _ => []
  | c :: cs, budget =>
    if w c ≤ budget then c :: truncateToWidth w cs (budget - w c) else []

/-- A unit-width measure (every glyph one column wide), used to instantiate
the width-collaborator parameter on concrete ASCII examples. -/
def unitWidth : Char → Nat := fun _ => 1

/-- The accumulation loop of `TruncateSpans::into_spans` (lines 69-79 of
`src/spans.rs`): pushes fragments while they fit, and stops — with the
overflowing fragment already pushed and the remaining budget untouched — as
soon as one exceeds the remaining budget.  Returns the pushed fragments, the
remaining budget `rest_w`, and the `exceed` flag. -/
def truncLoop (w : Char → Nat) : List Span → Nat → List Span × Nat × Bool
  | [], b => ([], b, false)
  | s :: rest, b =>
    if b < measureWidth w s.content then ([s], b, true)
    else
      (s :: (truncLoop w rest (b - measureWidth w s.content)).1,
        (truncLoop w rest (b - measureWidth w s.content)).2)

/-- Sum of the display widths of a fragment list's contents. -/
def sumWidths (w : Char → Nat) (spans : List Span) : Nat :=
  (spans.map (fun s => measureWidth w s.content)).sum

/-- `TruncateSpans::into_spans` from `src/spans.rs`: width-bounded truncation
with an ellipsis. -/
def truncate_into_spans (w : Char → Nat) (spans : List Span) (maxW : Nat)
    (ellipsis : List Char) (esty : Style) : List Span :=
  if sumWidths w spans ≤ maxW then spans
  else if maxW ≤ measureWidth w ellipsis then
    [⟨truncateToWidth w ellipsis maxW, esty⟩]
  else if (truncLoop w spans (maxW - measureWidth w ellipsis)).2.2 = false ∧
      (truncLoop w spans (maxW - measureWidth w ellipsis)).1.length = spans.length then
    (truncLoop w spans (maxW - measureWidth w ellipsis)).1
  else
    match (truncLoop w spans (maxW - measureWidth w ellipsis)).1.getLast? with
    | none => []
    | some last =>
      ((truncLoop w spans (maxW - measureWidth w ellipsis)).1.dropLast ++
        if (truncateToWidth w last.content
            (truncLoop w spans (maxW - measureWidth w ellipsis)).2.1).isEmpty then []
        else [⟨truncateToWidth w last.content
            (truncLoop w spans (maxW - measureWidth w ellipsis)).2.1, last.style⟩])
        ++ if ellipsis.isEmpty then [] else [⟨ellipsis, esty⟩]

/-! ### Specification-side reference definitions

The following definitions are written from the spec's words, to be compared
with the source-derived definitions above: a segmentation of the content into
maximal runs of constant match state (§4.2 step 3 of the spec), and the
walk-keep-truncate-drop description of the width truncator (§4.3 step 3). -/

/-- First position in `[a, b)` whose match state differs from `s0`, or `b` if
there is none.  `fuel ≥ b - a` makes the scan exact. -/
def firstChange (fuel : Nat) (ms : List Range) (s0 : Bool) (a b : Nat) : Nat :=
  match fuel with
  | 0 => b
  | fuel + 1 =>
    if a < b then
      if matchState ms a ≠ s0 then a else firstChange fuel ms s0 (a + 1) b
    else b

/-- The maximal runs of constant match state covering `[a, b)`, as a list of
half-open intervals: each run extends from its start to the first following
state change (or to `b`).  `fuel ≥ b - a` makes the decomposition exact. -/
def maxRuns (fuel : Nat) (ms : List Range) (a b : Nat) : List (Nat × Nat) :=
  match fuel with
  | 0 => []
  | fuel + 1 =>
    if a < b then
      (a, firstChange (b - (a + 1)) ms (matchState ms a) (a + 1) b) ::
        maxRuns fuel ms (firstChange (b - (a + 1)) ms (matchState ms a) (a + 1) b) b
    else []

/-- Spec-side segmentation of one fragment whose content occupies global
offsets `[cp, cp + length)`: one output sub-fragment per maximal run of
constant match state within `[cp, min (cp + length) limit)`, styled by
patching the run's state style onto the fragment's own style. -/
def segFrag (mu : List Range) (mstyle nstyle : Style) (limit cp : Nat)
    (s : Span) : List Span :=
  (maxRuns (min (cp + s.content.length) limit - cp) mu cp
      (min (cp + s.content.length) limit)).map (fun ab =>
    ⟨(s.content.drop (ab.1 - cp)).take (ab.2 - ab.1),
     if matchState mu ab.1 then s.style.patch mstyle else s.style.patch nstyle⟩)

/-- Spec-side segmentation of a fragment list: fragment boundaries are always
split points, and within a fragment the only splits are match-state changes. -/
def segBody (mu : List Range) (mstyle nstyle : Style) (limit : Nat) :
    List Span → Nat → List Span
  | [], _ => []
  | s :: rest, cp =>
    segFrag mu mstyle nstyle limit cp s
      ++ segBody mu mstyle nstyle limit rest (cp + s.content.length)

/-- Spec-side counterpart of `into_spans`: identical wrapper (empty input,
effective clipped ranges, appended ellipsis) but with the body produced by
the maximal-run segmentation instead of the source's cursor loops. -/
def segmentSpec (spans : List Span) (matchRanges : List Range)
    (nstyle mstyle : Style) (ellipsis : Option (List Char)) : List Span :=
  if spans.isEmpty then []
  else
    match ellipsis with
    | some e =>
      segBody (applyClip (totalLen spans - e.length) (totalLen spans) matchRanges)
          mstyle nstyle (totalLen spans - e.length) spans 0
        ++ [⟨e, if matchState (applyClip (totalLen spans - e.length) (totalLen spans)
                    matchRanges) (totalLen spans - e.length)
                then mstyle else nstyle⟩]
    | none =>
      segBody matchRanges mstyle nstyle (totalLen spans) spans 0

/-- Spec-side walk of §4.3 step 3: fragments that fit entirely within the
remaining budget are kept verbatim; the first fragment that would exceed it
is truncated to the remaining budget and kept (with its original style) iff
the truncation is non-empty; everything after is dropped. -/
def truncWalk (w : Char → Nat) : List Span → Nat → List Span
  | [], _ => []
  | s :: rest, b =>
    if measureWidth w s.content ≤ b then
      s :: truncWalk w rest (b - measureWidth w s.content)
    else if (truncateToWidth w s.content b).isEmpty then []
    else [⟨truncateToWidth w s.content b, s.style⟩]

/-- The §4.1/§3 invariant of a merged range list: sorted ascending, pairwise
disjoint, no two ranges adjacent (a gap of at least one index between
consecutive ranges), and every range non-degenerate (`start < end`). -/
def Merged (ms : List Range) : Prop :=
  List.Chain' (fun r s => r.stop < s.start) ms ∧ ∀ r ∈ ms, r.start < r.stop

/-! ### Lemmas about `sort_and_dedup` and `to_ranges` -/

theorem mem_dedupConsec : ∀ {l : List Nat} {x : Nat}, x ∈ dedupConsec l ↔ x ∈ l
  | [], _ => Iff.rfl
  | [_], _ => Iff.rfl
  | a :: b :: t, x => by
    rw [dedupConsec]
    by_cases hab : a = b
    · rw [if_pos hab, mem_dedupConsec (l := b :: t)]
      subst hab
      simp [List.mem_cons]
    · rw [if_neg hab, List.mem_cons, mem_dedupConsec (l := b :: t)]
      simp [List.mem_cons]

theorem head?_dedupConsec : ∀ (a : Nat) (l : List Nat), (dedupConsec (a :: l)).head? = some a
  | _, [] => rfl
  | a, b :: t => by
    rw [dedupConsec]
    by_cases hab : a = b
    · rw [if_pos hab, hab, head?_dedupConsec b t]
    · rw [if_neg hab]; rfl

theorem chain'_lt_dedupConsec :
    ∀ {l : List Nat}, List.Chain' (· ≤ ·) l → List.Chain' (· < ·) (dedupConsec l)
  | [], _ => List.chain'_nil
  | [a], _ => List.chain'_singleton a
  | a :: b :: t, h => by
    rw [List.chain'_cons] at h
    rw [dedupConsec]
    by_cases hab : a = b
    · rw [if_pos hab]; exact chain'_lt_dedupConsec h.2
    · rw [if_neg hab, List.chain'_cons']
      refine ⟨fun y hy => ?_, chain'_lt_dedupConsec h.2⟩
      rw [head?_dedupConsec b t] at hy
      cases hy
      exact lt_of_le_of_ne h.1 hab

theorem pairwise_lt_sort_and_dedup (l : List Nat) :
    List.Pairwise (· < ·) (sort_and_dedup l) := by
  rw [List.chain'_iff_pairwise.symm]
  exact chain'_lt_dedupConsec (List.sorted_insertionSort (· ≤ ·) l).chain'

theorem mem_sort_and_dedup {l : List Nat} {x : Nat} : x ∈ sort_and_dedup l ↔ x ∈ l := by
  rw [sort_and_dedup, mem_dedupConsec]
  exact (List.perm_insertionSort (· ≤ ·) l).mem_iff

theorem to_ranges_loop_spec :
    ∀ (l : List Nat) (start stop : Nat), start < stop →
      List.Pairwise (· < ·) l → (∀ x ∈ l, stop ≤ x) →
      List.Chain' (fun r s => r.stop < s.start) (to_ranges_loop start stop l) ∧
      (∀ r ∈ to_ranges_loop start stop l, r.start < r.stop) ∧
      (∀ r ∈ to_ranges_loop start stop l, start ≤ r.start) ∧
      (∀ x : Nat, (∃ r ∈ to_ranges_loop start stop l, r.start ≤ x ∧ x < r.stop) ↔
        (start ≤ x ∧ x < stop) ∨ x ∈ l)
  | [], start, stop, hss, _, _ => by
    rw [to_ranges_loop]
    refine ⟨List.chain'_singleton _, ?_, ?_, ?_⟩
    · intro r hr; rw [List.mem_singleton] at hr; subst hr; exact hss
    · intro r hr; rw [List.mem_singleton] at hr; subst hr; exact Nat.le_refl _
    · intro x; simp
  | i :: rest, start, stop, hss, hpw, hge => by
    rw [List.pairwise_cons] at hpw
    have hirest : ∀ x ∈ rest, i + 1 ≤ x := fun x hx => hpw.1 x hx
    rw [to_ranges_loop]
    by_cases hi : i = stop
    · rw [if_pos hi]
      have hss' : start < i + 1 := Nat.lt_succ_of_lt (hi ▸ hss)
      obtain ⟨h1, h2, h3, h4⟩ := to_ranges_loop_spec rest start (i + 1) hss' hpw.2 hirest
      refine ⟨h1, h2, h3, fun x => ?_⟩
      rw [h4 x]
      subst hi
      constructor
      · rintro (⟨hx1, hx2⟩ | hx)
        · rcases Nat.lt_succ_iff_lt_or_eq.mp hx2 with hlt | heq
          · exact Or.inl ⟨hx1, hlt⟩
          · exact Or.inr (heq ▸ List.mem_cons_self _ _)
        · exact Or.inr (List.mem_cons_of_mem _ hx)
      · rintro (⟨hx1, hx2⟩ | hx)
        · exact Or.inl ⟨hx1, Nat.lt_succ_of_lt hx2⟩
        · rcases List.mem_cons.mp hx with heq | hmem
          · subst heq; exact Or.inl ⟨Nat.le_of_lt hss, Nat.lt_succ_self _⟩
          · exact Or.inr hmem
    · rw [if_neg hi]
      have hstopi : stop < i := Nat.lt_of_le_of_ne (hge i (List.mem_cons_self _ _)) (fun h => hi h.symm)
      obtain ⟨h1, h2, h3, h4⟩ := to_ranges_loop_spec rest i (i + 1) (Nat.lt_succ_self i) hpw.2 hirest
      refine ⟨?_, ?_, ?_, fun x => ?_⟩
      · rw [List.chain'_cons']
        refine ⟨fun y hy => ?_, h1⟩
        exact Nat.lt_of_lt_of_le hstopi (h3 y (List.mem_of_mem_head? hy))
      · intro r hr
        rcases List.mem_cons.mp hr with heq | hmem
        · subst heq; exact hss
        · exact h2 r hmem
      · intro r hr
        rcases List.mem_cons.mp hr with heq | hmem
        · subst heq; exact Nat.le_refl _
        · exact Nat.le_trans (Nat.le_of_lt (Nat.lt_trans hss hstopi)) (h3 r hmem)
      · constructor
        · rintro ⟨r, hr, hx1, hx2⟩
          rcases List.mem_cons.mp hr with heq | hmem
          · subst heq; exact Or.inl ⟨hx1, hx2⟩
          · rcases (h4 x).mp ⟨r, hmem, hx1, hx2⟩ with ⟨ha, hb⟩ | hc
            · rcases Nat.lt_succ_iff_lt_or_eq.mp hb with hlt | heq
              · exact absurd ha (Nat.not_le_of_lt hlt)
              · exact Or.inr (heq ▸ List.mem_cons_self _ _)
            · exact Or.inr (List.mem_cons_of_mem _ hc)
        · rintro (⟨hx1, hx2⟩ | hx)
          · exact ⟨⟨start, stop⟩, List.mem_cons_self _ _, hx1, hx2⟩
          · rcases List.mem_cons.mp hx with heq | hmem
            · subst heq
              obtain ⟨r, hr, hx1, hx2⟩ := (h4 x).mpr (Or.inl ⟨Nat.le_refl _, Nat.lt_succ_self _⟩)
              exact ⟨r, List.mem_cons_of_mem _ hr, hx1, hx2⟩
            · obtain ⟨r, hr, hx1, hx2⟩ := (h4 x).mpr (Or.inr hmem)
              exact ⟨r, List.mem_cons_of_mem _ hr, hx1, hx2⟩

theorem to_ranges_merged (l : List Nat) : Merged (to_ranges l) := by
  rw [to_ranges]
  by_cases he : l.isEmpty
  · rw [if_pos he]; exact ⟨List.chain'_nil, by simp⟩
  · rw [if_neg he]
    rcases hsd : sort_and_dedup l with _ | ⟨i, rest⟩
    · exact ⟨List.chain'_nil, by simp⟩
    · have hpw := pairwise_lt_sort_and_dedup l
      rw [hsd, List.pairwise_cons] at hpw
      obtain ⟨h1, h2, _, _⟩ :=
        to_ranges_loop_spec rest i (i + 1) (Nat.lt_succ_self i) hpw.2
          (fun x hx => hpw.1 x hx)
      exact ⟨h1, h2⟩

theorem to_ranges_covered (l : List Nat) (x : Nat) :
    (∃ r ∈ to_ranges l, r.start ≤ x ∧ x < r.stop) ↔ x ∈ l := by
  rw [to_ranges]
  by_cases he : l.isEmpty
  · rw [if_pos he, List.isEmpty_iff.mp he]; simp
  · rw [if_neg he]
    rcases hsd : sort_and_dedup l with _ | ⟨i, rest⟩
    · exfalso
      have : l ≠ [] := fun h => he (by simp [h])
      obtain ⟨y, hy⟩ := List.exists_mem_of_ne_nil l this
      have : y ∈ sort_and_dedup l := mem_sort_and_dedup.mpr hy
      rw [hsd] at this; exact absurd this (List.not_mem_nil y)
    · have hpw := pairwise_lt_sort_and_dedup l
      rw [hsd, List.pairwise_cons] at hpw
      obtain ⟨_, _, _, h4⟩ :=
        to_ranges_loop_spec rest i (i + 1) (Nat.lt_succ_self i) hpw.2
          (fun y hy => hpw.1 y hy)
      rw [h4 x]
      have : x ∈ i :: rest ↔ x ∈ l := by rw [← hsd, mem_sort_and_dedup]
      rw [← this, List.mem_cons]
      constructor
      · rintro (⟨ha, hb⟩ | hc)
        · rcases Nat.lt_succ_iff_lt_or_eq.mp hb with hlt | heq
          · exact absurd ha (Nat.not_le_of_lt hlt)
          · exact Or.inl heq
        · exact Or.inr hc
      · rintro (heq | hmem)
        · exact Or.inl ⟨Nat.le_of_eq heq.symm, heq ▸ Nat.lt_succ_self i⟩
        · exact Or.inr hmem

theorem matchState_to_ranges (l : List Nat) (x : Nat) :
    matchState (to_ranges l) x = true ↔ x ∈ l := by
  rw [← to_ranges_covered l x, matchState, List.any_eq_true]
  constructor
  · rintro ⟨r, hr, hh⟩
    rw [Range.holds, Bool.and_eq_true, decide_eq_true_iff, decide_eq_true_iff] at hh
    exact ⟨r, hr, hh⟩
  · rintro ⟨r, hr, h1, h2⟩
    exact ⟨r, hr, by rw [Range.holds, Bool.and_eq_true, decide_eq_true_iff, decide_eq_true_iff]; exact ⟨h1, h2⟩⟩

/-! ### Lemmas about `find_next_break` and content preservation -/

theorem find_next_break_gt {pos : Nat} {ms : List Range} {b : Nat}
    (h : find_next_break pos ms = some b) : pos < b := by
  rw [find_next_break, List.min?_eq_some_iff'] at h
  have := h.1
  rw [List.mem_filter, decide_eq_true_iff] at this
  exact this.2

theorem find_next_break_min {pos : Nat} {ms : List Range} {b : Nat}
    (h : find_next_break pos ms = some b) :
    ∀ c ∈ boundaries ms, pos < c → b ≤ c := by
  rw [find_next_break, List.min?_eq_some_iff'] at h
  intro c hc hpc
  exact h.2 c (List.mem_filter.mpr ⟨hc, decide_eq_true hpc⟩)

theorem find_next_break_mem {pos : Nat} {ms : List Range} {b : Nat}
    (h : find_next_break pos ms = some b) : b ∈ boundaries ms := by
  rw [find_next_break, List.min?_eq_some_iff'] at h
  have := h.1
  rw [List.mem_filter] at this
  exact this.1

theorem find_next_break_none {pos : Nat} {ms : List Range}
    (h : find_next_break pos ms = none) : ∀ c ∈ boundaries ms, ¬ pos < c := by
  rw [find_next_break, List.min?_eq_none_iff, List.filter_eq_nil_iff] at h
  intro c hc
  have := h c hc
  rw [decide_eq_true_iff] at this
  exact this

theorem totalLen_cons (s : Span) (rest : List Span) :
    totalLen (s :: rest) = s.content.length + totalLen rest := by
  simp [totalLen]

theorem joinContents_length (l : List Span) : (joinContents l).length = totalLen l := by
  induction l with
  | nil => rfl
  | cons s rest ih => rw [joinContents, List.length_append, ih, totalLen_cons]

/-- Concatenation distributes over list append. -/
theorem joinContents_append (a b : List Span) :
    joinContents (a ++ b) = joinContents a ++ joinContents b := by
  induction a with
  | nil => simp [joinContents]
  | cons x a iha => simp [joinContents, iha]

theorem innerLoop_join (c : List Char) (ostyle : Style) (mu : List Range)
    (mstyle nstyle : Style) (cp eff : Nat) :
    ∀ (fuel cursor : Nat), eff - (cp + cursor) ≤ fuel →
      joinContents (innerLoop fuel c ostyle mu mstyle nstyle cp eff cursor) =
        (c.drop cursor).take (eff - cp - cursor)
  | 0, cursor, hf => by
    rw [innerLoop, joinContents]
    have : eff - cp - cursor = 0 := by omega
    rw [this, List.take_zero]
  | fuel + 1, cursor, hf => by
    rw [innerLoop]
    by_cases hlt : cp + cursor < eff
    · rw [if_pos hlt]
      dsimp only
      have hnb1 : cp + cursor < min ((find_next_break (cp + cursor) mu).getD eff) eff := by
        rcases hfb : find_next_break (cp + cursor) mu with _ | b
        · simpa using hlt
        · simp only [Option.getD_some, lt_min_iff]
          exact ⟨find_next_break_gt hfb, hlt⟩
      have hnb2 : min ((find_next_break (cp + cursor) mu).getD eff) eff ≤ eff :=
        Nat.min_le_right _ _
      generalize hg : min ((find_next_break (cp + cursor) mu).getD eff) eff = nb at hnb1 hnb2 ⊢
      have hrec : eff - (cp + (nb - cp)) ≤ fuel := by omega
      by_cases hsl : ((c.drop cursor).take (nb - cp - cursor)).isEmpty
      · rw [if_pos hsl]
        rw [innerLoop_join c ostyle mu mstyle nstyle cp eff fuel (nb - cp) hrec]
        rw [List.isEmpty_iff, List.take_eq_nil_iff] at hsl
        rcases hsl with h0 | hnil
        · omega
        · rw [List.drop_eq_nil_iff] at hnil
          have h1 : c.drop cursor = [] := List.drop_eq_nil_iff.mpr (by omega)
          have h2 : c.drop (nb - cp) = [] := List.drop_eq_nil_iff.mpr (by omega)
          rw [h1, h2, List.take_nil, List.take_nil]
      · rw [if_neg hsl, joinContents]
        dsimp only
        rw [innerLoop_join c ostyle mu mstyle nstyle cp eff fuel (nb - cp) hrec]
        have heq : eff - cp - cursor = (nb - cp - cursor) + (eff - cp - (nb - cp)) := by omega
        rw [heq, List.take_add, List.drop_drop]
        have heq2 : cursor + (nb - cp - cursor) = nb - cp := by omega
        rw [heq2]
    · rw [if_neg hlt, joinContents]
      have : eff - cp - cursor = 0 := by omega
      rw [this, List.take_zero]

theorem outerLoop_join (mu : List Range) (mstyle nstyle : Style) (limit : Nat) :
    ∀ (l : List Span) (cp : Nat),
      joinContents (outerLoop mu mstyle nstyle limit l cp) =
        (joinContents l).take (limit - cp)
  | [], cp => by rw [outerLoop, joinContents, List.take_nil]
  | s :: rest, cp => by
    rw [outerLoop]
    by_cases hcp : limit ≤ cp
    · rw [if_pos hcp, joinContents]
      have : limit - cp = 0 := by omega
      rw [this, List.take_zero]
    · rw [if_neg hcp]
      dsimp only
      rw [joinContents_append,
        innerLoop_join s.content s.style mu mstyle nstyle cp
          (min (cp + s.content.length) limit) (min (cp + s.content.length) limit) 0 (by omega),
        outerLoop_join mu mstyle nstyle limit rest (cp + s.content.length),
        joinContents, List.take_append_eq_append_take, List.drop_zero]
      have h2 : limit - (cp + s.content.length) = limit - cp - s.content.length := by omega
      rw [h2]
      have h3 : s.content.take (min (cp + s.content.length) limit - cp - 0) =
          s.content.take (limit - cp) := by
        by_cases hc : cp + s.content.length ≤ limit
        · have : min (cp + s.content.length) limit - cp - 0 = s.content.length := by omega
          rw [this, List.take_length, List.take_of_length_le (by omega)]
        · have : min (cp + s.content.length) limit - cp - 0 = limit - cp := by omega
          rw [this]
      rw [h3]

/-! ### Match-state analysis for merged range lists -/

theorem bool_eq_of_iff {a b : Bool} (h : a = true ↔ b = true) : a = b := by
  cases a <;> cases b <;> simp_all

theorem matchState_iff {ms : List Range} {p : Nat} :
    matchState ms p = true ↔ ∃ r ∈ ms, r.start ≤ p ∧ p < r.stop := by
  rw [matchState, List.any_eq_true]
  constructor
  · rintro ⟨r, hr, hh⟩
    rw [Range.holds, Bool.and_eq_true, decide_eq_true_iff, decide_eq_true_iff] at hh
    exact ⟨r, hr, hh⟩
  · rintro ⟨r, hr, h1, h2⟩
    refine ⟨r, hr, ?_⟩
    rw [Range.holds, Bool.and_eq_true, decide_eq_true_iff, decide_eq_true_iff]
    exact ⟨h1, h2⟩

theorem mem_boundaries {ms : List Range} {x : Nat} :
    x ∈ boundaries ms ↔ ∃ r ∈ ms, x = r.start ∨ x = r.stop := by
  rw [boundaries, List.mem_flatMap]
  apply exists_congr
  intro r
  simp

theorem Merged.tail {r : Range} {rest : List Range} (h : Merged (r :: rest)) : Merged rest :=
  ⟨h.1.tail, fun s hs => h.2 s (List.mem_cons_of_mem _ hs)⟩

theorem merged_pairwise : ∀ {ms : List Range}, Merged ms →
    List.Pairwise (fun r s => r.stop < s.start) ms
  | [], _ => List.Pairwise.nil
  | [r], _ => List.pairwise_singleton _ r
  | r :: c :: l, h => by
    have hrc : r.stop < c.start := (List.chain'_cons.mp h.1).1
    have ih := merged_pairwise (Merged.tail h)
    rw [List.pairwise_cons]
    refine ⟨?_, ih⟩
    intro b hb
    rcases List.mem_cons.mp hb with heq | hmem
    · exact heq ▸ hrc
    · have hcb : c.stop < b.start := (List.pairwise_cons.mp ih).1 b hmem
      have hcc : c.start < c.stop := h.2 c (List.mem_cons_of_mem _ (List.mem_cons_self _ _))
      omega

theorem pairwise_elim {α : Type} {R : α → α → Prop} :
    ∀ {l : List α}, List.Pairwise R l → ∀ {x y : α}, x ∈ l → y ∈ l →
      x = y ∨ R x y ∨ R y x
  | [], _, _, _, hx, _ => absurd hx (List.not_mem_nil _)
  | a :: l, h, x, y, hx, hy => by
    rw [List.pairwise_cons] at h
    rcases List.mem_cons.mp hx with hxa | hxl <;> rcases List.mem_cons.mp hy with hya | hyl
    · exact Or.inl (hxa.trans hya.symm)
    · exact Or.inr (Or.inl (hxa ▸ h.1 y hyl))
    · exact Or.inr (Or.inr (hya ▸ h.1 x hxl))
    · exact pairwise_elim h.2 hxl hyl

/-- Match state is constant on a boundary-free interval (no merging needed). -/
theorem matchState_const {ms : List Range} {a q : Nat} (haq : a ≤ q)
    (hnb : ∀ x ∈ boundaries ms, ¬(a < x ∧ x ≤ q)) :
    matchState ms q = matchState ms a := by
  apply bool_eq_of_iff
  rw [matchState_iff, matchState_iff]
  constructor
  · rintro ⟨r, hr, h1, h2⟩
    refine ⟨r, hr, ?_, ?_⟩
    · by_contra hlt
      exact hnb r.start (mem_boundaries.mpr ⟨r, hr, Or.inl rfl⟩) ⟨by omega, by omega⟩
    · omega
  · rintro ⟨r, hr, h1, h2⟩
    refine ⟨r, hr, by omega, ?_⟩
    by_contra hle
    exact hnb r.stop (mem_boundaries.mpr ⟨r, hr, Or.inr rfl⟩) ⟨by omega, by omega⟩

/-- For a merged range list the match state flips at the next break point. -/
theorem matchState_flip {ms : List Range} {a p : Nat} (hm : Merged ms)
    (hfb : find_next_break a ms = some p) :
    matchState ms p ≠ matchState ms a := by
  have hap : a < p := find_next_break_gt hfb
  have hpw := merged_pairwise hm
  rcases hsa : matchState ms a with _ | _
  · -- state at a is false: p must be the start of a range, so state at p is true
    obtain ⟨r, hr, hror⟩ := mem_boundaries.mp (find_next_break_mem hfb)
    have hrr : r.start < r.stop := hm.2 r hr
    rcases hror with hps | hpe
    · -- p = r.start
      have : matchState ms p = true :=
        matchState_iff.mpr ⟨r, hr, Nat.le_of_eq hps.symm, by omega⟩
      rw [this]
      exact fun h => Bool.false_ne_true h.symm
    · -- p = r.stop: then r.start ≤ a (else r.start would be a smaller break),
      -- so a lies in r, contradicting state false at a
      exfalso
      have hrs : r.start ≤ a := by
        by_contra hlt
        have := find_next_break_min hfb r.start
          (mem_boundaries.mpr ⟨r, hr, Or.inl rfl⟩) (by omega)
        omega
      have : matchState ms a = true := matchState_iff.mpr ⟨r, hr, hrs, by omega⟩
      rw [hsa] at this
      exact Bool.false_ne_true this
  · -- state at a is true: the containing range's stop is the next break,
    -- and no range holds there
    obtain ⟨r, hr, hr1, hr2⟩ := matchState_iff.mp hsa
    have hple : p ≤ r.stop := find_next_break_min hfb r.stop
      (mem_boundaries.mpr ⟨r, hr, Or.inr rfl⟩) (by omega)
    have hpeq : p = r.stop := by
      by_contra hne
      have hplt : p < r.stop := by omega
      obtain ⟨s, hs, hsor⟩ := mem_boundaries.mp (find_next_break_mem hfb)
      have hss : s.start < s.stop := hm.2 s hs
      rcases pairwise_elim hpw hr hs with heq | hlt | hgt
      · subst heq
        rcases hsor with h | h <;> omega
      · rcases hsor with h | h <;> omega
      · rcases hsor with h | h <;> omega
    intro hc
    obtain ⟨s, hs, hs1, hs2⟩ := matchState_iff.mp hc
    have hss : s.start < s.stop := hm.2 s hs
    rcases pairwise_elim hpw hr hs with heq | hlt | hgt
    · subst heq; omega
    · omega
    · omega

theorem matchState_const_below {ms : List Range} {a p : Nat}
    (hfb : find_next_break a ms = some p) :
    ∀ q, a ≤ q → q < p → matchState ms q = matchState ms a := by
  intro q haq hqp
  apply matchState_const haq
  intro x hx ⟨hax, hxq⟩
  have := find_next_break_min hfb x hx hax
  omega

theorem matchState_const_none {ms : List Range} {a : Nat}
    (hfb : find_next_break a ms = none) :
    ∀ q, a ≤ q → matchState ms q = matchState ms a := by
  intro q haq
  apply matchState_const haq
  intro x hx ⟨hax, _⟩
  exact find_next_break_none hfb x hx hax

/-! ### `firstChange` and `maxRuns` -/

theorem firstChange_ge (ms : List Range) (s0 : Bool) :
    ∀ (fuel a b : Nat), a ≤ b → a ≤ firstChange fuel ms s0 a b
  | 0, _, _, hab => hab
  | fuel + 1, a, b, hab => by
    rw [firstChange]
    by_cases h : a < b
    · rw [if_pos h]
      by_cases hs : matchState ms a ≠ s0
      · rw [if_pos hs]
      · rw [if_neg hs]
        exact Nat.le_of_succ_le (firstChange_ge ms s0 fuel (a + 1) b h)
    · rw [if_neg h]; exact hab

theorem firstChange_le (ms : List Range) (s0 : Bool) :
    ∀ (fuel a b : Nat), a ≤ b → firstChange fuel ms s0 a b ≤ b
  | 0, _, _, _ => Nat.le_refl _
  | fuel + 1, a, b, hab => by
    rw [firstChange]
    by_cases h : a < b
    · rw [if_pos h]
      by_cases hs : matchState ms a ≠ s0
      · rw [if_pos hs]; exact hab
      · rw [if_neg hs]
        exact firstChange_le ms s0 fuel (a + 1) b h
    · rw [if_neg h]

theorem firstChange_eq (ms : List Range) (s0 : Bool) :
    ∀ (fuel a b p : Nat), b - a ≤ fuel → a ≤ p → p ≤ b →
      (∀ q, a ≤ q → q < p → matchState ms q = s0) →
      (p < b → matchState ms p ≠ s0) →
      firstChange fuel ms s0 a b = p
  | 0, a, b, p, hf, hap, hpb, _, _ => by
    rw [firstChange]; omega
  | fuel + 1, a, b, p, hf, hap, hpb, hconst, hflip => by
    rw [firstChange]
    by_cases h : a < b
    · rw [if_pos h]
      by_cases hs : matchState ms a ≠ s0
      · rw [if_pos hs]
        by_contra hne
        have hlt : a < p := by omega
        exact hs (hconst a (Nat.le_refl a) hlt)
      · rw [if_neg hs]
        push_neg at hs
        have hpa : a + 1 ≤ p := by
          rcases Nat.lt_or_ge a p with h1 | h1
          · omega
          · exfalso
            have : p = a := by omega
            subst this
            exact hflip h hs
        exact firstChange_eq ms s0 fuel (a + 1) b p (by omega) hpa hpb
          (fun q hq1 hq2 => hconst q (by omega) hq2) hflip
    · rw [if_neg h]; omega

/-- The break point computed by the source's inner loop coincides with the
first state change of the spec-side segmentation, for merged range lists. -/
theorem nextBreak_eq_firstChange {ms : List Range} {a b : Nat} (hm : Merged ms)
    (hab : a < b) :
    min ((find_next_break a ms).getD b) b =
      firstChange (b - (a + 1)) ms (matchState ms a) (a + 1) b := by
  rcases hfb : find_next_break a ms with _ | bp
  · rw [Option.getD_none, Nat.min_self]
    refine (firstChange_eq ms (matchState ms a) (b - (a + 1)) (a + 1) b b (Nat.le_refl _)
      hab (Nat.le_refl _) (fun q hq1 _ => matchState_const_none hfb q (by omega))
      (fun h => absurd h (lt_irrefl b))).symm
  · rw [Option.getD_some]
    have habp : a < bp := find_next_break_gt hfb
    by_cases hbe : bp < b
    · rw [Nat.min_eq_left (Nat.le_of_lt hbe)]
      refine (firstChange_eq ms (matchState ms a) (b - (a + 1)) (a + 1) b bp (Nat.le_refl _)
        habp (Nat.le_of_lt hbe)
        (fun q hq1 hq2 => matchState_const_below hfb q (by omega) hq2)
        (fun _ => matchState_flip hm hfb)).symm
    · rw [Nat.min_eq_right (by omega)]
      refine (firstChange_eq ms (matchState ms a) (b - (a + 1)) (a + 1) b b (Nat.le_refl _)
        hab (Nat.le_refl _)
        (fun q hq1 hq2 => matchState_const_below hfb q (by omega) (by omega))
        (fun h => absurd h (lt_irrefl b))).symm

theorem maxRuns_fuel (ms : List Range) (b : Nat) :
    ∀ (f g a : Nat), b - a ≤ f → b - a ≤ g → maxRuns f ms a b = maxRuns g ms a b
  | 0, g, a, hf, hg => by
    rw [maxRuns]
    cases g with
    | zero => rw [maxRuns]
    | succ g => rw [maxRuns, if_neg (by omega)]
  | f + 1, g, a, hf, hg => by
    cases g with
    | zero => rw [maxRuns, maxRuns, if_neg (by omega)]
    | succ g =>
      rw [maxRuns, maxRuns]
      by_cases h : a < b
      · rw [if_pos h, if_pos h]
        have hp := firstChange_ge ms (matchState ms a) (b - (a + 1)) (a + 1) b h
        exact congrArg _ (maxRuns_fuel ms b f g
          (firstChange (b - (a + 1)) ms (matchState ms a) (a + 1) b) (by omega) (by omega))
      · rw [if_neg h, if_neg h]

theorem maxRuns_bounds (ms : List Range) (b : Nat) :
    ∀ (f a : Nat), ∀ ab ∈ maxRuns f ms a b, a ≤ ab.1 ∧ ab.1 < b
  | 0, a, ab, hab => absurd hab (List.not_mem_nil ab)
  | f + 1, a, ab, hab => by
    rw [maxRuns] at hab
    by_cases h : a < b
    · rw [if_pos h] at hab
      rcases List.mem_cons.mp hab with heq | hmem
      · subst heq; exact ⟨Nat.le_refl _, h⟩
      · have hp := firstChange_ge ms (matchState ms a) (b - (a + 1)) (a + 1) b h
        have := maxRuns_bounds ms b f _ ab hmem
        omega
    · rw [if_neg h] at hab
      exact absurd hab (List.not_mem_nil ab)

/-! ### The source loops compute the maximal-run segmentation -/

theorem innerLoop_eq_maxRuns (c : List Char) (ostyle : Style) {mu : List Range}
    (mstyle nstyle : Style) (cp eff : Nat) (hm : Merged mu) (heff : eff ≤ cp + c.length) :
    ∀ (fuel cursor : Nat), eff - (cp + cursor) ≤ fuel →
      innerLoop fuel c ostyle mu mstyle nstyle cp eff cursor =
        (maxRuns (eff - (cp + cursor)) mu (cp + cursor) eff).map (fun ab =>
          ⟨(c.drop (ab.1 - cp)).take (ab.2 - ab.1),
           if matchState mu ab.1 then ostyle.patch mstyle else ostyle.patch nstyle⟩)
  | 0, cursor, hf => by
    rw [innerLoop]
    have h0 : eff - (cp + cursor) = 0 := by omega
    rw [h0, maxRuns, List.map_nil]
  | fuel + 1, cursor, hf => by
    rw [innerLoop]
    by_cases hlt : cp + cursor < eff
    · rw [if_pos hlt]
      dsimp only
      rw [nextBreak_eq_firstChange hm hlt]
      have hp1 : cp + cursor + 1 ≤
          firstChange (eff - (cp + cursor + 1)) mu (matchState mu (cp + cursor))
            (cp + cursor + 1) eff :=
        firstChange_ge mu _ _ _ _ hlt
      have hp2 : firstChange (eff - (cp + cursor + 1)) mu (matchState mu (cp + cursor))
          (cp + cursor + 1) eff ≤ eff :=
        firstChange_le mu _ _ _ _ hlt
      have hk : eff - (cp + cursor) = (eff - (cp + cursor) - 1) + 1 := by omega
      rw [hk, maxRuns, if_pos hlt, List.map_cons]
      dsimp only
      generalize hg : firstChange (eff - (cp + cursor + 1)) mu (matchState mu (cp + cursor))
        (cp + cursor + 1) eff = p at hp1 hp2 ⊢
      have hslice : ¬ ((c.drop cursor).take (p - cp - cursor)).isEmpty = true := by
        rw [List.isEmpty_iff, List.take_eq_nil_iff]
        push_neg
        refine ⟨by omega, fun h => ?_⟩
        rw [List.drop_eq_nil_iff] at h
        omega
      rw [if_neg hslice]
      congr 1
      · have e1 : cp + cursor - cp = cursor := by omega
        have e2 : p - (cp + cursor) = p - cp - cursor := by omega
        rw [e1, e2]
      · rw [innerLoop_eq_maxRuns c ostyle mstyle nstyle cp eff hm heff fuel (p - cp)
          (by omega)]
        have e3 : cp + (p - cp) = p := by omega
        rw [e3, maxRuns_fuel mu eff (eff - p) (eff - (cp + cursor) - 1) p
          (Nat.le_refl _) (by omega)]
    · rw [if_neg hlt]
      have h0 : eff - (cp + cursor) = 0 := by omega
      rw [h0, maxRuns, List.map_nil]

theorem segBody_nil_of_le (mu : List Range) (mstyle nstyle : Style) (limit : Nat) :
    ∀ (l : List Span) (cp : Nat), limit ≤ cp → segBody mu mstyle nstyle limit l cp = []
  | [], _, _ => rfl
  | s :: rest, cp, h => by
    rw [segBody, segFrag]
    have hmin := Nat.min_le_right (cp + s.content.length) limit
    have h0 : min (cp + s.content.length) limit - cp = 0 := by omega
    rw [h0, maxRuns, List.map_nil, List.nil_append]
    exact segBody_nil_of_le mu mstyle nstyle limit rest (cp + s.content.length) (by omega)

theorem outerLoop_eq_segBody {mu : List Range} (mstyle nstyle : Style) (limit : Nat)
    (hm : Merged mu) :
    ∀ (l : List Span) (cp : Nat),
      outerLoop mu mstyle nstyle limit l cp = segBody mu mstyle nstyle limit l cp
  | [], _ => rfl
  | s :: rest, cp => by
    by_cases hcp : limit ≤ cp
    · rw [outerLoop, if_pos hcp, segBody_nil_of_le mu mstyle nstyle limit (s :: rest) cp hcp]
    · rw [outerLoop, if_neg hcp, segBody, segFrag]
      dsimp only
      congr 1
      · rw [innerLoop_eq_maxRuns s.content s.style mstyle nstyle cp
          (min (cp + s.content.length) limit) hm (Nat.min_le_left _ _)
          (min (cp + s.content.length) limit) 0 (by omega), Nat.add_zero]
      · exact outerLoop_eq_segBody mstyle nstyle limit hm rest (cp + s.content.length)

theorem applyClip_merged (limit total : Nat) {ms : List Range} (hm : Merged ms) :
    Merged (applyClip limit total ms) := by
  rw [applyClip]
  cases h : clipMatches limit total ms with
  | some tmp => exact to_ranges_merged _
  | none => exact hm

/-- The highlighter agrees with the spec-side maximal-run segmentation on
every merged input. -/
theorem into_spans_eq_segmentSpec (spans : List Span) {mr : List Range}
    (nstyle mstyle : Style) (ellipsis : Option (List Char)) (hm : Merged mr) :
    into_spans spans mr nstyle mstyle ellipsis =
      segmentSpec spans mr nstyle mstyle ellipsis := by
  cases ellipsis with
  | some e =>
    rw [into_spans, segmentSpec]
    by_cases hsp : spans.isEmpty
    · rw [if_pos hsp, if_pos hsp]
    · rw [if_neg hsp, if_neg hsp]
      congr 1
      exact outerLoop_eq_segBody mstyle nstyle _
        (applyClip_merged _ _ hm) spans 0
  | none =>
    rw [into_spans, segmentSpec]
    by_cases hsp : spans.isEmpty
    · rw [if_pos hsp, if_pos hsp]
    · rw [if_neg hsp, if_neg hsp]
      exact outerLoop_eq_segBody mstyle nstyle _ hm spans 0

/-! ### Congruence: the segmentation depends only on the match state below
the limit, and clipping preserves the match state below the limit -/

theorem firstChange_congr {m1 m2 : List Range} {N : Nat}
    (hpt : ∀ p, p < N → matchState m1 p = matchState m2 p) :
    ∀ (fuel : Nat) (s0 : Bool) (a b : Nat), b ≤ N →
      firstChange fuel m1 s0 a b = firstChange fuel m2 s0 a b
  | 0, _, _, _, _ => rfl
  | fuel + 1, s0, a, b, hbN => by
    rw [firstChange, firstChange]
    by_cases h : a < b
    · rw [if_pos h, if_pos h, hpt a (by omega),
        firstChange_congr hpt fuel s0 (a + 1) b hbN]
    · rw [if_neg h, if_neg h]

theorem maxRuns_congr {m1 m2 : List Range} {N : Nat}
    (hpt : ∀ p, p < N → matchState m1 p = matchState m2 p) :
    ∀ (fuel a b : Nat), b ≤ N → maxRuns fuel m1 a b = maxRuns fuel m2 a b
  | 0, _, _, _ => rfl
  | fuel + 1, a, b, hbN => by
    rw [maxRuns, maxRuns]
    by_cases h : a < b
    · rw [if_pos h, if_pos h, hpt a (by omega),
        firstChange_congr hpt (b - (a + 1)) (matchState m2 a) (a + 1) b hbN,
        maxRuns_congr hpt fuel
          (firstChange (b - (a + 1)) m2 (matchState m2 a) (a + 1) b) b hbN]
    · rw [if_neg h, if_neg h]

theorem segFrag_congr {m1 m2 : List Range} {N : Nat}
    (hpt : ∀ p, p < N → matchState m1 p = matchState m2 p)
    (mstyle nstyle : Style) {limit : Nat} (hlim : limit ≤ N) (cp : Nat) (s : Span) :
    segFrag m1 mstyle nstyle limit cp s = segFrag m2 mstyle nstyle limit cp s := by
  rw [segFrag, segFrag]
  have heffN : min (cp + s.content.length) limit ≤ N :=
    Nat.le_trans (Nat.min_le_right _ _) hlim
  rw [maxRuns_congr hpt (min (cp + s.content.length) limit - cp) cp
    (min (cp + s.content.length) limit) heffN]
  apply List.map_congr_left
  intro ab hab
  have hb := maxRuns_bounds m2 (min (cp + s.content.length) limit)
    (min (cp + s.content.length) limit - cp) cp ab hab
  rw [hpt ab.1 (by omega)]

theorem segBody_congr {m1 m2 : List Range} {N : Nat}
    (hpt : ∀ p, p < N → matchState m1 p = matchState m2 p)
    (mstyle nstyle : Style) {limit : Nat} (hlim : limit ≤ N) :
    ∀ (l : List Span) (cp : Nat),
      segBody m1 mstyle nstyle limit l cp = segBody m2 mstyle nstyle limit l cp
  | [], _ => rfl
  | s :: rest, cp => by
    rw [segBody, segBody, segFrag_congr hpt mstyle nstyle hlim cp s,
      segBody_congr hpt mstyle nstyle hlim rest (cp + s.content.length)]

theorem mem_rangeIdx {r : Range} {p : Nat} : p ∈ rangeIdx r ↔ r.start ≤ p ∧ p < r.stop := by
  rw [rangeIdx, List.mem_range'_1]
  omega

theorem mem_flatMap_rangeIdx {l : List Range} {p : Nat} :
    p ∈ l.flatMap rangeIdx ↔ ∃ r ∈ l, r.start ≤ p ∧ p < r.stop := by
  rw [List.mem_flatMap]
  exact exists_congr fun r => and_congr_right fun _ => mem_rangeIdx

theorem clip_covered {limit total : Nat} (hlt : limit ≤ total) :
    ∀ {ms : List Range} {tmp : List Range}, Merged ms →
      clipMatches limit total ms = some tmp → ∀ p, p < limit →
      ((∃ r ∈ tmp, r.start ≤ p ∧ p < r.stop) ↔ (∃ r ∈ ms, r.start ≤ p ∧ p < r.stop))
  | [], tmp, _, hclip => by rw [clipMatches] at hclip; exact absurd hclip (by simp)
  | r :: rest, tmp, hm, hclip => by
    rw [clipMatches] at hclip
    by_cases h : limit < r.stop
    · rw [if_pos h] at hclip
      rw [Option.some_inj] at hclip
      subst hclip
      intro p hp
      have hpw := merged_pairwise hm
      rw [List.pairwise_cons] at hpw
      constructor
      · rintro ⟨s, hs, hs1, hs2⟩
        rw [List.mem_singleton] at hs
        subst hs
        by_cases hrs : r.start < limit
        · rw [if_pos hrs] at hs1 hs2
          dsimp only at hs1 hs2
          exact ⟨r, List.mem_cons_self _ _, hs1, by omega⟩
        · rw [if_neg hrs] at hs1 hs2
          dsimp only at hs1 hs2
          omega
      · rintro ⟨s, hs, hs1, hs2⟩
        rcases List.mem_cons.mp hs with heq | hmem
        · subst heq
          have hrs : s.start < limit := by omega
          rw [if_pos hrs]
          exact ⟨⟨s.start, total⟩, List.mem_singleton_self _,
            by dsimp only; omega, by dsimp only; omega⟩
        · have := hpw.1 s hmem
          omega
    · rw [if_neg h] at hclip
      rcases hrec : clipMatches limit total rest with _ | tmp'
      · rw [hrec] at hclip; exact absurd hclip (by simp)
      · rw [hrec, Option.some_inj] at hclip
        subst hclip
        intro p hp
        have ih := clip_covered hlt (Merged.tail hm) hrec p hp
        constructor
        · rintro ⟨s, hs, hs1, hs2⟩
          rcases List.mem_cons.mp hs with heq | hmem
          · exact ⟨r, List.mem_cons_self _ _, heq ▸ hs1, heq ▸ hs2⟩
          · obtain ⟨u, hu, hu1, hu2⟩ := ih.mp ⟨s, hmem, hs1, hs2⟩
            exact ⟨u, List.mem_cons_of_mem _ hu, hu1, hu2⟩
        · rintro ⟨s, hs, hs1, hs2⟩
          rcases List.mem_cons.mp hs with heq | hmem
          · exact ⟨r, List.mem_cons_self _ _, heq ▸ hs1, heq ▸ hs2⟩
          · obtain ⟨u, hu, hu1, hu2⟩ := ih.mpr ⟨s, hmem, hs1, hs2⟩
            exact ⟨u, List.mem_cons_of_mem _ hu, hu1, hu2⟩

theorem applyClip_matchState {limit total : Nat} {ms : List Range} (hm : Merged ms)
    (hlt : limit ≤ total) (p : Nat) (hp : p < limit) :
    matchState (applyClip limit total ms) p = matchState ms p := by
  rw [applyClip]
  rcases hclip : clipMatches limit total ms with _ | tmp
  · rfl
  · apply bool_eq_of_iff
    rw [matchState_to_ranges, mem_flatMap_rangeIdx, matchState_iff]
    exact clip_covered hlt hm hclip p hp

/-! ### Lemmas about the width truncator -/

theorem measureWidth_cons (w : Char → Nat) (c : Char) (l : List Char) :
    measureWidth w (c :: l) = w c + measureWidth w l := by
  simp [measureWidth]

theorem sumWidths_cons (w : Char → Nat) (s : Span) (l : List Span) :
    sumWidths w (s :: l) = measureWidth w s.content + sumWidths w l := by
  simp [sumWidths]

theorem sumWidths_append (w : Char → Nat) (a b : List Span) :
    sumWidths w (a ++ b) = sumWidths w a + sumWidths w b := by
  induction a with
  | nil => simp [sumWidths]
  | cons s a iha => rw [List.cons_append, sumWidths_cons, sumWidths_cons, iha]; omega

theorem truncateToWidth_le (w : Char → Nat) :
    ∀ (l : List Char) (b : Nat), measureWidth w (truncateToWidth w l b) ≤ b
  | [], b => by rw [truncateToWidth]; simp [measureWidth]
  | c :: cs, b => by
    rw [truncateToWidth]
    by_cases h : w c ≤ b
    · rw [if_pos h, measureWidth_cons]
      have := truncateToWidth_le w cs (b - w c)
      omega
    · rw [if_neg h]; simp [measureWidth]

theorem merged_singleton {a b : Nat} (h : a < b) : Merged [Range.mk a b] :=
  ⟨List.chain'_singleton _, fun r hr => by rw [List.mem_singleton] at hr; subst hr; exact h⟩

theorem getLast?_cons_ne {α : Type} (s : α) {l : List α} (h : l ≠ []) :
    (s :: l).getLast? = l.getLast? := by
  cases l with
  | nil => exact absurd rfl h
  | cons y ys => rw [List.getLast?_cons_cons]

theorem dropLast_cons_ne {α : Type} (s : α) {l : List α} (h : l ≠ []) :
    (s :: l).dropLast = s :: l.dropLast := by
  cases l with
  | nil => exact absurd rfl h
  | cons y ys => rw [List.dropLast_cons₂]

/-- The loop invariant of `truncLoop`: the remaining budget never grows; on
exceed, the pushed fragments are the fully-fitting prefix (of total width
`b - rest_w`) plus the one overflowing fragment last; without exceed,
everything was pushed and fits. -/
theorem truncLoop_spec (w : Char → Nat) :
    ∀ (l : List Span) (b : Nat),
      (truncLoop w l b).2.1 ≤ b ∧
      ((truncLoop w l b).2.2 = true →
        ∃ x, (truncLoop w l b).1.getLast? = some x ∧
          sumWidths w (truncLoop w l b).1.dropLast = b - (truncLoop w l b).2.1 ∧
          (truncLoop w l b).2.1 < measureWidth w x.content) ∧
      ((truncLoop w l b).2.2 = false →
        (truncLoop w l b).1 = l ∧ sumWidths w l = b - (truncLoop w l b).2.1)
  | [], b => by
    rw [truncLoop]
    refine ⟨Nat.le_refl b, fun h => absurd h (by simp), fun _ => ⟨rfl, ?_⟩⟩
    simp [sumWidths]
  | s :: rest, b => by
    rw [truncLoop]
    by_cases h : b < measureWidth w s.content
    · rw [if_pos h]
      refine ⟨Nat.le_refl b, fun _ => ⟨s, rfl, ?_, by simpa using h⟩,
        fun hc => absurd hc (by simp)⟩
      simp [sumWidths]
    · rw [if_neg h]
      obtain ⟨ih1, ih2, ih3⟩ := truncLoop_spec w rest (b - measureWidth w s.content)
      refine ⟨by dsimp only; omega, ?_, ?_⟩
      · intro hex
        dsimp only at hex
        obtain ⟨x, hx1, hx2, hx3⟩ := ih2 hex
        have hne : (truncLoop w rest (b - measureWidth w s.content)).1 ≠ [] := by
          intro hnil; rw [hnil] at hx1; exact absurd hx1 (by simp)
        refine ⟨x, ?_, ?_, hx3⟩
        · dsimp only
          rw [getLast?_cons_ne s hne]
          exact hx1
        · dsimp only
          rw [dropLast_cons_ne s hne, sumWidths_cons]
          omega
      · intro hnex
        dsimp only at hnex
        obtain ⟨h1, h2⟩ := ih3 hnex
        refine ⟨by dsimp only; rw [h1], ?_⟩
        dsimp only
        rw [sumWidths_cons]
        omega

/-- On exceed, popping the overflowing fragment, truncating it, and keeping it
iff non-empty is exactly the spec-side walk `truncWalk`. -/
theorem truncLoop_walk (w : Char → Nat) :
    ∀ (l : List Span) (b : Nat),
      ((truncLoop w l b).2.2 = true →
        ∀ x, (truncLoop w l b).1.getLast? = some x →
          (truncLoop w l b).1.dropLast ++
            (if (truncateToWidth w x.content (truncLoop w l b).2.1).isEmpty then []
             else [⟨truncateToWidth w x.content (truncLoop w l b).2.1, x.style⟩]) =
          truncWalk w l b) ∧
      ((truncLoop w l b).2.2 = false → truncWalk w l b = l)
  | [], b => by
    rw [truncLoop]
    exact ⟨fun h => absurd h (by simp), fun _ => rfl⟩
  | s :: rest, b => by
    rw [truncLoop, truncWalk]
    by_cases h : b < measureWidth w s.content
    · rw [if_pos h, if_neg (show ¬ measureWidth w s.content ≤ b by omega)]
      refine ⟨?_, fun hc => absurd hc (by simp)⟩
      intro _ x hx
      dsimp only at hx ⊢
      rw [List.getLast?_singleton, Option.some_inj] at hx
      subst hx
      rw [List.dropLast_single, List.nil_append]
    · rw [if_neg h, if_pos (show measureWidth w s.content ≤ b by omega)]
      obtain ⟨ih1, ih2⟩ := truncLoop_walk w rest (b - measureWidth w s.content)
      obtain ⟨_, ihs2, _⟩ := truncLoop_spec w rest (b - measureWidth w s.content)
      refine ⟨?_, ?_⟩
      · intro hex x hx
        dsimp only at hex hx ⊢
        obtain ⟨y, hy1, _, _⟩ := ihs2 hex
        have hne : (truncLoop w rest (b - measureWidth w s.content)).1 ≠ [] := by
          intro hnil; rw [hnil] at hy1; exact absurd hy1 (by simp)
        rw [getLast?_cons_ne s hne] at hx
        have hwalk := ih1 hex x hx
        rw [dropLast_cons_ne s hne, List.cons_append, hwalk]
      · intro hnex
        dsimp only at hnex
        rw [ih2 hnex]

/-! ### Claim theorems -/

/-- C1: for every multiset of indices, `to_ranges` (mergeRanges) returns a
sorted-ascending list of ranges, each with `start < end`, pairwise disjoint
and non-adjacent (consecutive ranges satisfy `stop < start`, so no two can be
merged further), whose union of covered integers is exactly the deduplicated
input set; the empty input yields the empty list. -/
theorem C1_to_ranges_merges_exactly :
    to_ranges ([] : List Nat) = [] ∧
    ∀ idx : List Nat,
      List.Chain' (fun r s => r.stop < s.start) (to_ranges idx) ∧
      (∀ r ∈ to_ranges idx, r.start < r.stop) ∧
      (∀ x : Nat, (∃ r ∈ to_ranges idx, r.start ≤ x ∧ x < r.stop) ↔ x ∈ idx) :=
  ⟨rfl, fun idx =>
    ⟨(to_ranges_merged idx).1, (to_ranges_merged idx).2, to_ranges_covered idx⟩⟩

/-- Witness for C1, instantiated at the index list `[5, 2, 3]` and the
query point `3`. -/
theorem C1_witness :
    (∃ r ∈ to_ranges [5, 2, 3], r.start ≤ 3 ∧ 3 < r.stop) ↔ 3 ∈ [5, 2, 3] :=
  (C1_to_ranges_merges_exactly.2 [5, 2, 3]).2.2 3

/-- C2: with no ellipsis, the concatenated contents of the fragments returned
by `into_spans` (highlight) reproduce the concatenated input contents
exactly, for every fragment list and every match-index set. -/
theorem C2_no_ellipsis_content_preserving (spans : List Span) (idx : List Nat)
    (nstyle mstyle : Style) :
    joinContents (into_spans spans (to_ranges idx) nstyle mstyle none) =
      joinContents spans := by
  rw [into_spans]
  by_cases hsp : spans.isEmpty
  · rw [if_pos hsp, List.isEmpty_iff.mp hsp]
  · rw [if_neg hsp,
      outerLoop_join (to_ranges idx) mstyle nstyle (totalLen spans) spans 0, Nat.sub_zero]
    exact List.take_of_length_le (by rw [joinContents_length])

/-- C3: with an ellipsis and a non-empty fragment list, the non-ellipsis
output fragments concatenate to exactly the first
`limit = totalLength - |ellipsis|` (saturating) characters of the
concatenated input, and the ellipsis fragment is appended as the last output
fragment, for every merged match-range list, even when no range's end exceeds
the limit. -/
theorem C3_ellipsis_truncates_and_appends (spans : List Span) (mr : List Range)
    (nstyle mstyle : Style) (e : List Char) (hne : spans ≠ []) (_hm : Merged mr) :
    ∃ body estyle,
      into_spans spans mr nstyle mstyle (some e) = body ++ [Span.mk e estyle] ∧
      joinContents body = (joinContents spans).take (totalLen spans - e.length) := by
  rw [into_spans, if_neg (by simpa using hne)]
  refine ⟨_, _, rfl, ?_⟩
  rw [outerLoop_join _ mstyle nstyle (totalLen spans - e.length) spans 0, Nat.sub_zero]

/-- Witness for C3, at one fragment `"abc"`, the merged range list `[[1,2)]`
and ellipsis `".."`. -/
theorem C3_witness :
    ([Span.mk "abc".toList defaultStyle] ≠ ([] : List Span)) ∧
    Merged [Range.mk 1 2] ∧
    ∃ body estyle,
      into_spans [Span.mk "abc".toList defaultStyle] [Range.mk 1 2]
          defaultStyle defaultStyle (some "..".toList) = body ++ [Span.mk "..".toList estyle] ∧
      joinContents body =
        (joinContents [Span.mk "abc".toList defaultStyle]).take
          (totalLen [Span.mk "abc".toList defaultStyle] - ("..".toList).length) :=
  ⟨by decide, merged_singleton (by decide),
    C3_ellipsis_truncates_and_appends [Span.mk "abc".toList defaultStyle] [Range.mk 1 2]
      defaultStyle defaultStyle "..".toList (by decide) (merged_singleton (by decide))⟩

/-- C4: for every merged match-range list (with or without an ellipsis), the
highlighter output equals the spec-side maximal-run segmentation
`segmentSpec`: per input fragment, one output sub-fragment per maximal run of
constant match state (`maxRuns`) — so the only intra-fragment split points
are match-state changes — while input fragment boundaries are always split
points (each fragment is segmented separately and keeps its own style
provenance). -/
theorem C4_splits_only_at_state_changes (spans : List Span) (mr : List Range)
    (nstyle mstyle : Style) (ellipsis : Option (List Char)) (hm : Merged mr) :
    into_spans spans mr nstyle mstyle ellipsis =
      segmentSpec spans mr nstyle mstyle ellipsis :=
  into_spans_eq_segmentSpec spans nstyle mstyle ellipsis hm

/-- Witness for C4, at two fragments and the merged range list `[[1,4)]`. -/
theorem C4_witness :
    Merged [Range.mk 1 4] ∧
    into_spans [Span.mk "abc".toList defaultStyle, Span.mk "def".toList defaultStyle]
        [Range.mk 1 4] defaultStyle (Style.mk (some 9) none none) (some "..".toList) =
      segmentSpec [Span.mk "abc".toList defaultStyle, Span.mk "def".toList defaultStyle]
        [Range.mk 1 4] defaultStyle (Style.mk (some 9) none none) (some "..".toList) :=
  ⟨merged_singleton (by decide),
    C4_splits_only_at_state_changes
      [Span.mk "abc".toList defaultStyle, Span.mk "def".toList defaultStyle]
      [Range.mk 1 4] defaultStyle (Style.mk (some 9) none none) (some "..".toList)
      (merged_singleton (by decide))⟩

/-- Counterexample to C5 as stated: the match index `9`, which is at the
total content length of `"abcdef..."` (9), visibly changes the output when an
ellipsis is supplied — it flips the appended ellipsis fragment's style to the
matched style (exactly the behaviour pinned by the repository's own test
`test_highlight_matched_text_ellipsis_4`). -/
theorem C5_counterexample :
    totalLen [Span.mk "abcdef...".toList defaultStyle] ≤ 9 ∧
    into_spans [Span.mk "abcdef...".toList defaultStyle] (to_ranges [9])
        defaultStyle (Style.mk (some 9) none none) (some "...".toList) ≠
      into_spans [Span.mk "abcdef...".toList defaultStyle] (to_ranges [])
        defaultStyle (Style.mk (some 9) none none) (some "...".toList) := by
  decide

/-- C5 (amended): match indices at or beyond the total content length never
alter the non-ellipsis output: with no ellipsis the output is unchanged, and
with an ellipsis the two outputs agree on all fragments except possibly the
style of the final (ellipsis) fragment — their contents agree everywhere and
they agree as lists once the last fragment is dropped.  (All offset
arithmetic in the embedding is over `Nat` with truncated subtraction and
`take`/`drop` slicing, mirroring the source's saturating/bounded accesses.) -/
theorem C5_out_of_range_indices_inert (spans : List Span) (idx junk : List Nat)
    (nstyle mstyle : Style) (hjunk : ∀ j ∈ junk, totalLen spans ≤ j) :
    (into_spans spans (to_ranges (idx ++ junk)) nstyle mstyle none =
      into_spans spans (to_ranges idx) nstyle mstyle none) ∧
    ∀ e : List Char,
      (into_spans spans (to_ranges (idx ++ junk)) nstyle mstyle (some e)).dropLast =
        (into_spans spans (to_ranges idx) nstyle mstyle (some e)).dropLast ∧
      (into_spans spans (to_ranges (idx ++ junk)) nstyle mstyle (some e)).map
          (fun s => s.content) =
        (into_spans spans (to_ranges idx) nstyle mstyle (some e)).map
          (fun s => s.content) := by
  have hpt : ∀ p, p < totalLen spans →
      matchState (to_ranges (idx ++ junk)) p = matchState (to_ranges idx) p := by
    intro p hp
    apply bool_eq_of_iff
    rw [matchState_to_ranges, matchState_to_ranges, List.mem_append]
    constructor
    · rintro (h | h)
      · exact h
      · exact absurd (hjunk p h) (by omega)
    · exact Or.inl
  constructor
  · rw [into_spans_eq_segmentSpec spans nstyle mstyle none (to_ranges_merged _),
      into_spans_eq_segmentSpec spans nstyle mstyle none (to_ranges_merged _)]
    rw [segmentSpec, segmentSpec]
    by_cases hsp : spans.isEmpty
    · rw [if_pos hsp, if_pos hsp]
    · rw [if_neg hsp, if_neg hsp]
      exact segBody_congr hpt mstyle nstyle (Nat.le_refl (totalLen spans)) spans 0
  · intro e
    by_cases hsp : spans.isEmpty
    · rw [into_spans, into_spans, if_pos hsp, if_pos hsp]
      exact ⟨rfl, rfl⟩
    · have hle : totalLen spans - e.length ≤ totalLen spans := Nat.sub_le _ _
      have hclip_pt : ∀ p, p < totalLen spans - e.length →
          matchState (applyClip (totalLen spans - e.length) (totalLen spans)
            (to_ranges (idx ++ junk))) p =
          matchState (applyClip (totalLen spans - e.length) (totalLen spans)
            (to_ranges idx)) p := by
        intro p hp
        rw [applyClip_matchState (to_ranges_merged _) hle p hp,
          applyClip_matchState (to_ranges_merged _) hle p hp]
        exact hpt p (by omega)
      have houter :
          outerLoop (applyClip (totalLen spans - e.length) (totalLen spans)
              (to_ranges (idx ++ junk))) mstyle nstyle (totalLen spans - e.length) spans 0 =
          outerLoop (applyClip (totalLen spans - e.length) (totalLen spans)
              (to_ranges idx)) mstyle nstyle (totalLen spans - e.length) spans 0 := by
        rw [outerLoop_eq_segBody mstyle nstyle _
            (applyClip_merged _ _ (to_ranges_merged _)) spans 0,
          outerLoop_eq_segBody mstyle nstyle _
            (applyClip_merged _ _ (to_ranges_merged _)) spans 0]
        exact segBody_congr hclip_pt mstyle nstyle (Nat.le_refl _) spans 0
      rw [into_spans, into_spans, if_neg hsp, if_neg hsp]
      constructor
      · rw [List.dropLast_concat, List.dropLast_concat, houter]
      · simp only [List.map_append, List.map_cons, List.map_nil, houter]

/-- Witness for C5 (amended), at one fragment `"abcdef..."`, in-range index 1
and out-of-range index 20. -/
theorem C5_witness :
    (∀ j ∈ [20], totalLen [Span.mk "abcdef...".toList defaultStyle] ≤ j) ∧
    (into_spans [Span.mk "abcdef...".toList defaultStyle] (to_ranges ([1] ++ [20]))
        defaultStyle (Style.mk (some 9) none none) none =
      into_spans [Span.mk "abcdef...".toList defaultStyle] (to_ranges [1])
        defaultStyle (Style.mk (some 9) none none) none) ∧
    (into_spans [Span.mk "abcdef...".toList defaultStyle] (to_ranges ([1] ++ [20]))
        defaultStyle (Style.mk (some 9) none none) (some "...".toList)).dropLast =
      (into_spans [Span.mk "abcdef...".toList defaultStyle] (to_ranges [1])
        defaultStyle (Style.mk (some 9) none none) (some "...".toList)).dropLast ∧
    (into_spans [Span.mk "abcdef...".toList defaultStyle] (to_ranges ([1] ++ [20]))
        defaultStyle (Style.mk (some 9) none none) (some "...".toList)).map
        (fun s => s.content) =
      (into_spans [Span.mk "abcdef...".toList defaultStyle] (to_ranges [1])
        defaultStyle (Style.mk (some 9) none none) (some "...".toList)).map
        (fun s => s.content) :=
  ⟨by decide,
    (C5_out_of_range_indices_inert [Span.mk "abcdef...".toList defaultStyle] [1] [20]
      defaultStyle (Style.mk (some 9) none none) (by decide)).1,
    (C5_out_of_range_indices_inert [Span.mk "abcdef...".toList defaultStyle] [1] [20]
      defaultStyle (Style.mk (some 9) none none) (by decide)).2 "...".toList⟩

/-- Counterexample to C6 as stated: on Example B's input the highlighter does
not return the claimed two fragments `["abc", "def..."]` — the matched
content and the ellipsis are emitted as two separate fragments. -/
theorem C6_counterexample :
    into_spans [Span.mk "abcdef...".toList defaultStyle] (to_ranges [3, 4, 5, 6])
        defaultStyle (Style.mk (some 9) none none) (some "...".toList) ≠
      [Span.mk "abc".toList defaultStyle,
       Span.mk "def...".toList (Style.mk (some 9) none none)] := by
  decide

/-- C6 (amended): on content `"abcdef..."` with matched indices `[3,4,5,6]`
and ellipsis `"..."`, the merged range is `(3,7)`, the limit is `6`, the
clipped effective range is `(3,9)`, and the output is exactly THREE
fragments: `"abc"` unmatched, `"def"` matched, and `"..."` matched — the
matched run and the ellipsis span both carry the matched style but remain
separate fragments. -/
theorem C6_example_b_three_fragments :
    to_ranges [3, 4, 5, 6] = [Range.mk 3 7] ∧
    totalLen [Span.mk "abcdef...".toList defaultStyle] - ("...".toList).length = 6 ∧
    applyClip 6 9 [Range.mk 3 7] = [Range.mk 3 9] ∧
    into_spans [Span.mk "abcdef...".toList defaultStyle] (to_ranges [3, 4, 5, 6])
        defaultStyle (Style.mk (some 9) none none) (some "...".toList) =
      [Span.mk "abc".toList defaultStyle,
       Span.mk "def".toList (Style.mk (some 9) none none),
       Span.mk "...".toList (Style.mk (some 9) none none)] := by
  decide

/-- Counterexample to C7 as stated: with an empty ellipsis text (width 0,
which satisfies the claim's `displayWidth(ellipsisText) < maxWidth`
hypothesis), no ellipsis fragment is appended: the last output fragment on
`["abc"]` with `maxWidth = 2` is the truncated `"ab"`, not an
ellipsis fragment styled with the ellipsis style. -/
theorem C7_counterexample :
    2 < sumWidths unitWidth [Span.mk "abc".toList defaultStyle] ∧
    measureWidth unitWidth ([] : List Char) < 2 ∧
    (truncate_into_spans unitWidth [Span.mk "abc".toList defaultStyle] 2 []
        (Style.mk (some 1) none none)).getLast? ≠
      some (Span.mk [] (Style.mk (some 1) none none)) := by
  decide

/-- C7 (amended): when the total width exceeds `maxWidth` and the ellipsis
width is below `maxWidth`, the truncator output equals the spec-side walk
`truncWalk` — leading fragments that fit the remaining budget are kept with
their original styles, the first overflowing fragment is width-truncated to
the remaining budget and kept (with its original style) iff non-empty, all
later fragments are dropped — followed by the ellipsis fragment styled with
the ellipsis style, which is appended when (and only when) the ellipsis text
is non-empty. -/
theorem C7_truncation_walk (w : Char → Nat) (spans : List Span) (maxW : Nat)
    (e : List Char) (esty : Style) (htot : maxW < sumWidths w spans)
    (hew : measureWidth w e < maxW) :
    truncate_into_spans w spans maxW e esty =
      truncWalk w spans (maxW - measureWidth w e) ++
        (if e.isEmpty then [] else [Span.mk e esty]) := by
  rw [truncate_into_spans, if_neg (by omega), if_neg (by omega)]
  obtain ⟨hs1, hs2, hs3⟩ := truncLoop_spec w spans (maxW - measureWidth w e)
  obtain ⟨hw1, _⟩ := truncLoop_walk w spans (maxW - measureWidth w e)
  cases hex : (truncLoop w spans (maxW - measureWidth w e)).2.2 with
  | false =>
    exfalso
    obtain ⟨_, h2⟩ := hs3 hex
    omega
  | true =>
    rw [if_neg (by simp)]
    obtain ⟨x, hx1, _, _⟩ := hs2 hex
    rw [hx1]
    dsimp only
    rw [hw1 hex x hx1]

/-- Witness for C7 (amended), at Example C: fragments
`["abc", "def", "ghi"]`, `maxWidth = 7`, ellipsis `".."` — including the
claimed concrete output `["abc", "de", ".."]`. -/
theorem C7_witness :
    (7 < sumWidths unitWidth [Span.mk "abc".toList defaultStyle,
        Span.mk "def".toList defaultStyle, Span.mk "ghi".toList defaultStyle]) ∧
    (measureWidth unitWidth "..".toList < 7) ∧
    (truncate_into_spans unitWidth [Span.mk "abc".toList defaultStyle,
        Span.mk "def".toList defaultStyle, Span.mk "ghi".toList defaultStyle] 7
        "..".toList (Style.mk (some 4) none none) =
      truncWalk unitWidth [Span.mk "abc".toList defaultStyle,
        Span.mk "def".toList defaultStyle, Span.mk "ghi".toList defaultStyle]
        (7 - measureWidth unitWidth "..".toList) ++
        (if ("..".toList).isEmpty then []
         else [Span.mk "..".toList (Style.mk (some 4) none none)])) ∧
    truncate_into_spans unitWidth [Span.mk "abc".toList defaultStyle,
        Span.mk "def".toList defaultStyle, Span.mk "ghi".toList defaultStyle] 7
        "..".toList (Style.mk (some 4) none none) =
      [Span.mk "abc".toList defaultStyle, Span.mk "de".toList defaultStyle,
       Span.mk "..".toList (Style.mk (some 4) none none)] :=
  ⟨by decide, by decide,
    C7_truncation_walk unitWidth [Span.mk "abc".toList defaultStyle,
      Span.mk "def".toList defaultStyle, Span.mk "ghi".toList defaultStyle] 7
      "..".toList (Style.mk (some 4) none none) (by decide) (by decide),
    by decide⟩

/-- C8: the total display width of the truncator's output never exceeds
`maxWidth`, for every width measure, fragment list, budget, ellipsis text and
ellipsis style. -/
theorem C8_output_width_bounded (w : Char → Nat) (spans : List Span) (maxW : Nat)
    (e : List Char) (esty : Style) :
    sumWidths w (truncate_into_spans w spans maxW e esty) ≤ maxW := by
  rw [truncate_into_spans]
  by_cases h1 : sumWidths w spans ≤ maxW
  · rw [if_pos h1]; exact h1
  · rw [if_neg h1]
    by_cases h2 : maxW ≤ measureWidth w e
    · rw [if_pos h2, sumWidths_cons]
      dsimp only
      have ht := truncateToWidth_le w e maxW
      have h0 : sumWidths w ([] : List Span) = 0 := rfl
      omega
    · rw [if_neg h2]
      obtain ⟨hs1, hs2, hs3⟩ := truncLoop_spec w spans (maxW - measureWidth w e)
      by_cases hc : (truncLoop w spans (maxW - measureWidth w e)).2.2 = false ∧
          (truncLoop w spans (maxW - measureWidth w e)).1.length = spans.length
      · rw [if_pos hc]
        obtain ⟨hr1, hr2⟩ := hs3 hc.1
        rw [hr1]
        omega
      · rw [if_neg hc]
        have hex : (truncLoop w spans (maxW - measureWidth w e)).2.2 = true := by
          cases hb : (truncLoop w spans (maxW - measureWidth w e)).2.2 with
          | false =>
            exfalso
            obtain ⟨hr1, _⟩ := hs3 hb
            exact hc ⟨hb, by rw [hr1]⟩
          | true => rfl
        obtain ⟨x, hx1, hx2, hx3⟩ := hs2 hex
        rw [hx1]
        dsimp only
        rw [sumWidths_append, sumWidths_append]
        have ht := truncateToWidth_le w x.content
          (truncLoop w spans (maxW - measureWidth w e)).2.1
        have h0 : sumWidths w ([] : List Span) = 0 := rfl
        have hif1 : sumWidths w
            (if (truncateToWidth w x.content
                (truncLoop w spans (maxW - measureWidth w e)).2.1).isEmpty then []
             else [Span.mk (truncateToWidth w x.content
                (truncLoop w spans (maxW - measureWidth w e)).2.1) x.style]) ≤
            (truncLoop w spans (maxW - measureWidth w e)).2.1 := by
          by_cases hh : (truncateToWidth w x.content
              (truncLoop w spans (maxW - measureWidth w e)).2.1).isEmpty
          · rw [if_pos hh, h0]; omega
          · rw [if_neg hh, sumWidths_cons]
            dsimp only
            omega
        have hif2 : sumWidths w (if e.isEmpty then [] else [Span.mk e esty]) ≤
            measureWidth w e := by
          by_cases hh : e.isEmpty
          · rw [if_pos hh, h0]; omega
          · rw [if_neg hh, sumWidths_cons]
            dsimp only
            omega
        omega

/-- C9: when the fragments' total display width already fits within
`maxWidth`, the truncator is the identity: the input is returned unchanged
and no ellipsis is appended. -/
theorem C9_identity_when_fits (w : Char → Nat) (spans : List Span) (maxW : Nat)
    (e : List Char) (esty : Style) (h : sumWidths w spans ≤ maxW) :
    truncate_into_spans w spans maxW e esty = spans := by
  rw [truncate_into_spans, if_pos h]

/-- Witness for C9, at fragments `["abc", "def", "ghi"]` with
`maxWidth = 9` and ellipsis `".."`. -/
theorem C9_witness :
    (sumWidths unitWidth [Span.mk "abc".toList defaultStyle,
        Span.mk "def".toList defaultStyle, Span.mk "ghi".toList defaultStyle] ≤ 9) ∧
    truncate_into_spans unitWidth [Span.mk "abc".toList defaultStyle,
        Span.mk "def".toList defaultStyle, Span.mk "ghi".toList defaultStyle] 9
        "..".toList (Style.mk (some 4) none none) =
      [Span.mk "abc".toList defaultStyle, Span.mk "def".toList defaultStyle,
       Span.mk "ghi".toList defaultStyle] :=
  ⟨by decide,
    C9_identity_when_fits unitWidth [Span.mk "abc".toList defaultStyle,
      Span.mk "def".toList defaultStyle, Span.mk "ghi".toList defaultStyle] 9
      "..".toList (Style.mk (some 4) none none) (by decide)⟩

/-- C10: on an empty fragment list the highlighter returns the empty list for
every match-range list, style pair and (optional) ellipsis — in particular no
ellipsis fragment is appended. -/
theorem C10_empty_input_empty_output (mr : List Range) (nstyle mstyle : Style)
    (ellipsis : Option (List Char)) :
    into_spans [] mr nstyle mstyle ellipsis = [] := by
  cases ellipsis <;> rfl

end Laurier
